import Mathlib

/-!
Verification of a 2-d k-d tree (`kd_tree.py`): point/rectangle value types,
recursive median-split construction, axis-aligned range queries and
all-nearest-neighbour queries.

Modelling conventions:
* Coordinates are rationals (`ℚ`), standing for the exact real values of the
  Python numbers; arithmetic is exact.
* Python's `None` child / empty tree is the `Node.nil` constructor.
* `_distance` in the source returns the Euclidean norm
  `((x1-x2)**2 + (y1-y2)**2) ** 0.5`.  All the source ever does with this
  value is compare it (`<`, `==`) with another distance, or add it to /
  subtract it from a coordinate and compare with another coordinate.  Over
  exact real arithmetic each of those comparisons is equivalent to a
  square-root-free comparison, so the executable model `_nearest` uses the
  squared distance `dist2`; the definition `_nearestR` below mirrors the
  source literally over `ℝ` with `Real.sqrt`, and the theorem
  `_nearestR_eq_nearest` proves the two agree.
* Python's in-place `list.sort(key=...)` is a stable sort; it is modelled by
  `List.mergeSort`, Lean's stable sort, with the corresponding comparator.
* The partial accesses `best[0]` in `_nearest` (IndexError on an empty list)
  are modelled by the `Option`-valued `_nearestE`, where `none` stands for
  the raised exception.
-/

/-- Model of the `Point` namedtuple: an immutable 2-d coordinate pair. -/
structure Point where
  x : ℚ
  y : ℚ
deriving DecidableEq, Repr

/-- Indexing `p[axis]` on the `Point` namedtuple: index 0 is `x`, index 1 is
`y`.  The source only ever indexes with `depth % 2 ∈ {0, 1}`. -/
def Point.coord (p : Point) (axis : ℕ) : ℚ :=
  if axis = 0 then p.x else p.y

/-- Model of the `Rectangle` namedtuple: two corner points. -/
structure Rectangle where
  lower : Point
  upper : Point
deriving DecidableEq, Repr

/-- Model of `Rectangle.is_contains`:
`self.lower.x <= p.x <= self.upper.x and self.lower.y <= p.y <= self.upper.y`. -/
def Rectangle.is_contains (self : Rectangle) (p : Point) : Bool :=
  decide (self.lower.x ≤ p.x ∧ p.x ≤ self.upper.x) &&
    decide (self.lower.y ≤ p.y ∧ p.y ≤ self.upper.y)

/-- Model of the `Node` namedtuple together with the `None` that stands for
an absent subtree: `nil` is Python's `None`, `node` is
`Node(location, left, right)`. -/
inductive Node where
  | nil : Node
  | node (location : Point) (left right : Node) : Node
deriving DecidableEq, Repr

/-- The points stored in a (sub)tree, current node first. -/
def Node.toList : Node → List Point
  | Node.nil => []
  | Node.node loc l r => loc :: (l.toList ++ r.toList)

/-- Squared Euclidean distance.  The source's `_distance` is
`Real.sqrt` of this quantity (see `_distance` and `_distance_eq_sqrt`). -/
def dist2 (p1 p2 : Point) : ℚ :=
  (p1.x - p2.x) ^ 2 + (p1.y - p2.y) ^ 2

/-- Comparator modelling `key=lambda x: x[axis]` of the in-place stable
`list.sort`: compare points by their coordinate on `axis`. -/
def axisLe (axis : ℕ) : Point → Point → Bool :=
  fun a b => decide (a.coord axis ≤ b.coord axis)

/-- Model of `KDTree._create`.  `p.sort(key=lambda x: x[axis])` is the stable
sort by the axis coordinate (modelled by `List.mergeSort`), `median = len(p) // 2`,
and the node is built from the median point and the two slices
`p[:median]`, `p[median+1:]`. -/
def _create (p : List Point) (depth : ℕ) : Node :=
  match p with
  | [] => Node.nil
  | [q] => Node.node q Node.nil Node.nil
  | x :: y :: t =>
    let s := (x :: y :: t).mergeSort (axisLe (depth % 2))
    Node.node (s.getD (s.length / 2) ⟨0, 0⟩)
      (_create (s.take (s.length / 2)) (depth + 1))
      (_create (s.drop (s.length / 2 + 1)) (depth + 1))
termination_by p.length
decreasing_by
  · simp only [List.length_take, List.length_mergeSort, List.length_cons]
    omega
  · simp only [List.length_drop, List.length_mergeSort, List.length_cons]
    omega

/-- Model of the `KDTree` object state: `_root` and `_n`. -/
structure KDTree where
  root : Node
  n : ℕ
deriving DecidableEq, Repr

/-- A freshly constructed `KDTree()`: `_root = None`, `_n = 0`. -/
def KDTree.new : KDTree :=
  ⟨Node.nil, 0⟩

/-- Model of `KDTree.insert`: `self._root = self._create(p, 0)`,
`self._n = len(p)`.  The prior state is discarded entirely. -/
def KDTree.insert (_self : KDTree) (p : List Point) : KDTree :=
  ⟨_create p 0, p.length⟩

/-- Model of `KDTree._range`: the accumulating `result` list is threaded
explicitly; `result.append` is modelled by appending on the right. -/
def _range (node : Node) (rectangle : Rectangle) (depth : ℕ) (result : List Point) :
    List Point :=
  match node with
  | Node.nil => result
  | Node.node loc l r =>
    let result := if rectangle.is_contains loc then result ++ [loc] else result
    let axis := depth % 2
    let result :=
      if rectangle.lower.coord axis ≤ loc.coord axis then
        _range l rectangle (depth + 1) result
      else result
    if loc.coord axis ≤ rectangle.upper.coord axis then
      _range r rectangle (depth + 1) result
    else result

/-- Model of `KDTree.range`: run `_range` from the root with a fresh result
list. -/
def KDTree.range (self : KDTree) (rectangle : Rectangle) : List Point :=
  _range self.root rectangle 0 []

/-- The update of `best` performed at each visited node of `_nearest`:
`if len(best) == 0 or _distance(p, node.location) < _distance(p, best[0]):
best = [node.location]` / `elif == : best.append(node.location)`.
Distance comparisons are expressed on squared distances (equivalent over the
reals, see `_nearestR_eq_nearest`).  The `len(best) == 0` test short-circuits
exactly as in Python, so `best[0]` is only read on a non-empty list here. -/
def updateBest (p loc : Point) (best : List Point) : List Point :=
  if best.length = 0 then [loc]
  else if dist2 p loc < dist2 p (best.headD ⟨0, 0⟩) then [loc]
  else if dist2 p loc = dist2 p (best.headD ⟨0, 0⟩) then best ++ [loc]
  else best

/-- Model of `KDTree._nearest`.  The pruning tests of the source are
`p[axis] + _distance(p, best[0]) >= node.location[axis]` (taken in the branch
where `p[axis] < node.location[axis]`) and
`p[axis] - _distance(p, best[0]) <= node.location[axis]` (in the branch where
`p[axis] >= node.location[axis]`); over the reals these are equivalent to the
square-root-free forms used here, namely
`(node.location[axis] - p[axis])^2 ≤ dist2 p best[0]` and
`(p[axis] - node.location[axis])^2 ≤ dist2 p best[0]` — see
`_nearestR_eq_nearest`.  `best[0]` is modelled by `headD` here; the
exception-aware variant `_nearestE` models it by `head?`. -/
def _nearest (node : Node) (p : Point) (depth : ℕ) (best : List Point) : List Point :=
  match node with
  | Node.nil => best
  | Node.node loc l r =>
    let best := updateBest p loc best
    let axis := depth % 2
    if p.coord axis < loc.coord axis then
      let best := _nearest l p (depth + 1) best
      if (loc.coord axis - p.coord axis) ^ 2 ≤ dist2 p (best.headD ⟨0, 0⟩) then
        _nearest r p (depth + 1) best
      else best
    else
      let best := _nearest r p (depth + 1) best
      if (p.coord axis - loc.coord axis) ^ 2 ≤ dist2 p (best.headD ⟨0, 0⟩) then
        _nearest l p (depth + 1) best
      else best

/-- Model of `KDTree.nearest`: run `_nearest` from the root with an empty
best list. -/
def KDTree.nearest (self : KDTree) (p : Point) : List Point :=
  _nearest self.root p 0 []

/-- Exception-aware variant of `updateBest`: the read `best[0]` raises
IndexError (`none`) on an empty list, but the `len(best) == 0` disjunct
short-circuits before it exactly as in Python. -/
def updateBestE (p loc : Point) (best : List Point) : Option (List Point) :=
  if best.length = 0 then some [loc]
  else
    match best.head? with
    | none => none
    | some b0 =>
      if dist2 p loc < dist2 p b0 then some [loc]
      else if dist2 p loc = dist2 p b0 then some (best ++ [loc])
      else some best

/-- Exception-aware model of `KDTree._nearest`: every `best[0]` read is
modelled by `best.head?`, and `none` stands for a raised IndexError.
The theorem proved about it shows the exception can never occur. -/
def _nearestE (node : Node) (p : Point) (depth : ℕ) (best : List Point) :
    Option (List Point) :=
  match node with
  | Node.nil => some best
  | Node.node loc l r =>
    match updateBestE p loc best with
    | none => none
    | some best =>
      let axis := depth % 2
      if p.coord axis < loc.coord axis then
        match _nearestE l p (depth + 1) best with
        | none => none
        | some best =>
          match best.head? with
          | none => none
          | some b0 =>
            if (loc.coord axis - p.coord axis) ^ 2 ≤ dist2 p b0 then
              _nearestE r p (depth + 1) best
            else some best
      else
        match _nearestE r p (depth + 1) best with
        | none => none
        | some best =>
          match best.head? with
          | none => none
          | some b0 =>
            if (p.coord axis - loc.coord axis) ^ 2 ≤ dist2 p b0 then
              _nearestE l p (depth + 1) best
            else some best

/-- Exception-aware model of `KDTree.nearest`. -/
def KDTree.nearestE (self : KDTree) (p : Point) : Option (List Point) :=
  _nearestE self.root p 0 []

/-- Model of the source's `_distance`: the Euclidean distance
`((p1.x - p2.x) ** 2 + (p1.y - p2.y) ** 2) ** 0.5`, read over exact real
arithmetic (`x ** 0.5 = Real.sqrt x` for the non-negative argument here). -/
noncomputable def _distance (p1 p2 : Point) : ℝ :=
  Real.sqrt (((p1.x : ℝ) - (p2.x : ℝ)) ^ 2 + ((p1.y : ℝ) - (p2.y : ℝ)) ^ 2)

/-- Literal model of `KDTree._nearest` over the reals, with the source's
comparisons on `_distance` values kept verbatim (including the additive
pruning tests `p[axis] + _distance(p, best[0]) >= node.location[axis]` and
`p[axis] - _distance(p, best[0]) <= node.location[axis]`).  Proven equal to
the executable `_nearest` in `_nearestR_eq_nearest`. -/
noncomputable def _nearestR (node : Node) (p : Point) (depth : ℕ) (best : List Point) :
    List Point :=
  match node with
  | Node.nil => best
  | Node.node loc l r =>
    let best :=
      if best.length = 0 then [loc]
      else if _distance p loc < _distance p (best.headD ⟨0, 0⟩) then [loc]
      else if _distance p loc = _distance p (best.headD ⟨0, 0⟩) then best ++ [loc]
      else best
    let axis := depth % 2
    if p.coord axis < loc.coord axis then
      let best := _nearestR l p (depth + 1) best
      if ((p.coord axis : ℝ)) + _distance p (best.headD ⟨0, 0⟩) ≥ ((loc.coord axis : ℝ)) then
        _nearestR r p (depth + 1) best
      else best
    else
      let best := _nearestR r p (depth + 1) best
      if ((p.coord axis : ℝ)) - _distance p (best.headD ⟨0, 0⟩) ≤ ((loc.coord axis : ℝ)) then
        _nearestR l p (depth + 1) best
      else best

/-- The contents of the caller's list after `KDTree.insert(p)` returns:
`_create` sorts the very list object `p` in place by axis `0 % 2 = 0`
whenever `len(p) >= 2` (for shorter lists it returns before sorting), and the
recursive calls receive fresh slice copies `p[:median]`, `p[median+1:]`, so
only the top-level call mutates the caller's list. -/
def insertEffect (p : List Point) : List Point :=
  match p with
  | [] => p
  | [_] => p
  | x :: y :: t => (x :: y :: t).mergeSort (axisLe (0 % 2))

/-- One public API call: `insert`, `range` or `nearest`. -/
inductive Op where
  | insertOp (p : List Point)
  | rangeOp (r : Rectangle)
  | nearestOp (q : Point)

/-- Small-step semantics of a public API call on a `KDTree` object: the
resulting object state together with the returned point list (`insert`
returns `None`, modelled by `[]`). -/
def stepOp (kd : KDTree) : Op → KDTree × List Point
  | Op.insertOp p => (kd.insert p, [])
  | Op.rangeOp r => (kd, kd.range r)
  | Op.nearestOp q => (kd, kd.nearest q)

/-- The k-d tree structural invariant at a given depth: the discriminator
axis is `depth % 2`, every point in the left subtree is `≤` the node's point
on that axis, every point in the right subtree is `≥` it, and the children
satisfy the invariant at `depth + 1`. -/
def KdInv : Node → ℕ → Prop
  | Node.nil, _ => True
  | Node.node loc l r, depth =>
      (∀ q ∈ l.toList, q.coord (depth % 2) ≤ loc.coord (depth % 2)) ∧
      (∀ q ∈ r.toList, loc.coord (depth % 2) ≤ q.coord (depth % 2)) ∧
      KdInv l (depth + 1) ∧ KdInv r (depth + 1)

/-- Whether, at every node, the node's own point (as a value) occurs in
neither child subtree. -/
def Node.locExcluded : Node → Bool
  | Node.nil => true
  | Node.node loc l r =>
      !(decide (loc ∈ l.toList)) && !(decide (loc ∈ r.toList)) &&
        l.locExcluded && r.locExcluded

/-- The distance from `p` to the head of a candidate list, as a `WithTop ℚ`:
an empty candidate list counts as `⊤` (no candidate yet). -/
def seedD (p : Point) : List Point → WithTop ℚ
  | [] => ⊤
  | b0 :: _ => ((dist2 p b0 : ℚ) : WithTop ℚ)

/-- Fold a list of (squared) distances into a running minimum seeded by `b`. -/
def minFoldT (xs : List ℚ) (b : WithTop ℚ) : WithTop ℚ :=
  xs.foldr (fun x acc => min ((x : ℚ) : WithTop ℚ) acc) b

/-- All points of a candidate list lie at the same (squared) distance from
`p` — the invariant of the `best` list of `_nearest`. -/
def AllEq (p : Point) (best : List Point) : Prop :=
  ∀ b ∈ best, ((dist2 p b : ℚ) : WithTop ℚ) = seedD p best

/-- Specification relation for one stage of the nearest-neighbour traversal:
processing the points `xs` turns the candidate list `best` into `best'`,
where `best'` consists of exactly the points of `best` and of `xs` realising
the minimum distance `minFoldT (xs.map (dist2 p)) (seedD p best)`. -/
def NStep (p : Point) (xs : List Point) (best best' : List Point) : Prop :=
  AllEq p best' ∧
  seedD p best' = minFoldT (xs.map (dist2 p)) (seedD p best) ∧
  ∀ b, b ∈ best' ↔
    (b ∈ best ∨ b ∈ xs) ∧
      ((dist2 p b : ℚ) : WithTop ℚ) = minFoldT (xs.map (dist2 p)) (seedD p best)

/-! ### Basic facts about points, distances and containment -/

theorem coord_cases (p : Point) (axis : ℕ) : p.coord axis = p.x ∨ p.coord axis = p.y := by
  unfold Point.coord
  split <;> simp

theorem dist2_nonneg (p q : Point) : 0 ≤ dist2 p q := by
  unfold dist2
  positivity

theorem sq_coord_le_dist2 (q x : Point) (axis : ℕ) :
    (x.coord axis - q.coord axis) ^ 2 ≤ dist2 q x := by
  unfold Point.coord dist2
  split
  · nlinarith [sq_nonneg (q.y - x.y)]
  · nlinarith [sq_nonneg (q.x - x.x)]

theorem is_contains_iff (r : Rectangle) (p : Point) :
    r.is_contains p = true ↔
      r.lower.x ≤ p.x ∧ p.x ≤ r.upper.x ∧ r.lower.y ≤ p.y ∧ p.y ≤ r.upper.y := by
  simp [Rectangle.is_contains, and_assoc]

theorem is_contains_coord {r : Rectangle} {p : Point} (h : r.is_contains p = true)
    (axis : ℕ) : r.lower.coord axis ≤ p.coord axis ∧ p.coord axis ≤ r.upper.coord axis := by
  rw [is_contains_iff] at h
  unfold Point.coord
  split <;> tauto

/-! ### Facts about the axis comparator and the stable sort -/

theorem axisLe_trans (axis : ℕ) (a b c : Point) (hab : axisLe axis a b = true)
    (hbc : axisLe axis b c = true) : axisLe axis a c = true := by
  simp only [axisLe, decide_eq_true_eq] at *
  exact le_trans hab hbc

theorem axisLe_total (axis : ℕ) (a b : Point) : (axisLe axis a b || axisLe axis b a) = true := by
  simp only [axisLe, Bool.or_eq_true, decide_eq_true_eq]
  exact le_total _ _

theorem mergeSort_axis_pairwise (axis : ℕ) (l : List Point) :
    List.Pairwise (fun a b => a.coord axis ≤ b.coord axis) (l.mergeSort (axisLe axis)) := by
  refine (List.sorted_mergeSort (axisLe_trans axis) (axisLe_total axis) l).imp ?_
  intro a b h
  simpa [axisLe] using h

/-! ### Unfolding and structure of the build -/

theorem _create_eq_node (p : List Point) (depth : ℕ) (h : 2 ≤ p.length) :
    _create p depth =
      Node.node ((p.mergeSort (axisLe (depth % 2))).getD
          ((p.mergeSort (axisLe (depth % 2))).length / 2) ⟨0, 0⟩)
        (_create ((p.mergeSort (axisLe (depth % 2))).take
          ((p.mergeSort (axisLe (depth % 2))).length / 2)) (depth + 1))
        (_create ((p.mergeSort (axisLe (depth % 2))).drop
          ((p.mergeSort (axisLe (depth % 2))).length / 2 + 1)) (depth + 1)) := by
  match p with
  | [] => simp at h
  | [q] => simp at h
  | x :: y :: t => rw [_create]

theorem _create_toList_perm (p : List Point) (depth : ℕ) :
    (_create p depth).toList.Perm p := by
  suffices h : ∀ (n : ℕ) (p : List Point) (depth : ℕ), p.length = n →
      (_create p depth).toList.Perm p from h p.length p depth rfl
  intro n
  induction n using Nat.strong_induction_on with
  | _ n ih =>
  intro p depth hn
  match p, hn with
  | [], _ => simp [_create, Node.toList]
  | [q], _ => simp [_create, Node.toList]
  | x :: y :: t, hn =>
    rw [_create_eq_node _ _ (by simp)]
    set s := (x :: y :: t).mergeSort (axisLe (depth % 2)) with hs
    have hslen : s.length = n := by
      rw [hs, List.length_mergeSort]
      exact hn
    have hn2 : 2 ≤ n := by
      simp only [List.length_cons] at hn
      omega
    have hm : s.length / 2 < s.length := Nat.div_lt_self (by omega) one_lt_two
    have ih1 := ih (s.take (s.length / 2)).length
      (by simp only [List.length_take]; omega) (s.take (s.length / 2)) (depth + 1) rfl
    have ih2 := ih (s.drop (s.length / 2 + 1)).length
      (by simp only [List.length_drop]; omega) (s.drop (s.length / 2 + 1)) (depth + 1) rfl
    rw [List.getD_eq_getElem _ _ hm]
    simp only [Node.toList]
    have h1 : (s[s.length / 2] ::
        ((_create (s.take (s.length / 2)) (depth + 1)).toList ++
          (_create (s.drop (s.length / 2 + 1)) (depth + 1)).toList)).Perm
        (s[s.length / 2] :: (s.take (s.length / 2) ++ s.drop (s.length / 2 + 1))) :=
      List.Perm.cons _ (List.Perm.append ih1 ih2)
    have h2 : (s.take (s.length / 2) ++ s[s.length / 2] :: s.drop (s.length / 2 + 1)) = s := by
      rw [List.getElem_cons_drop, List.take_append_drop]
    have h3 : (s[s.length / 2] :: (s.take (s.length / 2) ++ s.drop (s.length / 2 + 1))).Perm s := by
      conv_rhs => rw [← h2]
      exact List.perm_middle.symm
    exact (h1.trans h3).trans (List.mergeSort_perm _ _)

theorem mem_take_rel {α : Type} {R : α → α → Prop} {s : List α} (hpw : List.Pairwise R s)
    {m : ℕ} (hm : m < s.length) : ∀ q ∈ s.take m, R q s[m] := by
  intro q hq
  obtain ⟨i, hi, hiq⟩ := List.mem_iff_getElem.mp hq
  have him : i < m := by
    simp only [List.length_take] at hi
    omega
  have : s[i] = q := by
    rw [← hiq]
    exact (List.getElem_take _).symm
  rw [← this]
  exact List.pairwise_iff_getElem.mp hpw i m (by omega) hm him

theorem mem_drop_rel {α : Type} {R : α → α → Prop} {s : List α} (hpw : List.Pairwise R s)
    {m : ℕ} (hm : m < s.length) : ∀ q ∈ s.drop (m + 1), R s[m] q := by
  intro q hq
  obtain ⟨j, hj, hjq⟩ := List.mem_iff_getElem.mp hq
  have hjlen : m + 1 + j < s.length := by
    simp only [List.length_drop] at hj
    omega
  have : s[m + 1 + j] = q := by
    rw [← hjq]
    exact (List.getElem_drop _).symm
  rw [← this]
  exact List.pairwise_iff_getElem.mp hpw m (m + 1 + j) hm hjlen (by omega)

theorem _create_KdInv (p : List Point) (depth : ℕ) : KdInv (_create p depth) depth := by
  suffices h : ∀ (n : ℕ) (p : List Point) (depth : ℕ), p.length = n →
      KdInv (_create p depth) depth from h p.length p depth rfl
  intro n
  induction n using Nat.strong_induction_on with
  | _ n ih =>
  intro p depth hn
  match p, hn with
  | [], _ => simp [_create, KdInv]
  | [q], _ => simp [_create, KdInv, Node.toList]
  | x :: y :: t, hn =>
    rw [_create_eq_node _ _ (by simp)]
    set s := (x :: y :: t).mergeSort (axisLe (depth % 2)) with hs
    have hslen : s.length = n := by
      rw [hs, List.length_mergeSort]
      exact hn
    have hn2 : 2 ≤ n := by
      simp only [List.length_cons] at hn
      omega
    have hm : s.length / 2 < s.length := Nat.div_lt_self (by omega) one_lt_two
    have ih1 := ih (s.take (s.length / 2)).length
      (by simp only [List.length_take]; omega) (s.take (s.length / 2)) (depth + 1) rfl
    have ih2 := ih (s.drop (s.length / 2 + 1)).length
      (by simp only [List.length_drop]; omega) (s.drop (s.length / 2 + 1)) (depth + 1) rfl
    have hpw : List.Pairwise (fun a b => a.coord (depth % 2) ≤ b.coord (depth % 2)) s :=
      mergeSort_axis_pairwise (depth % 2) (x :: y :: t)
    rw [List.getD_eq_getElem _ _ hm]
    simp only [KdInv]
    refine ⟨?_, ?_, ih1, ih2⟩
    · intro q hq
      exact mem_take_rel hpw hm q (((_create_toList_perm _ _).mem_iff).mp hq)
    · intro q hq
      exact mem_drop_rel hpw hm q (((_create_toList_perm _ _).mem_iff).mp hq)

theorem _create_locExcluded (p : List Point) (depth : ℕ) (hnd : p.Nodup) :
    (_create p depth).locExcluded = true := by
  suffices h : ∀ (n : ℕ) (p : List Point) (depth : ℕ), p.length = n → p.Nodup →
      (_create p depth).locExcluded = true from h p.length p depth rfl hnd
  intro n
  induction n using Nat.strong_induction_on with
  | _ n ih =>
  intro p depth hn hnd
  match p, hn with
  | [], _ => simp [_create, Node.locExcluded]
  | [q], _ => simp [_create, Node.locExcluded, Node.toList]
  | x :: y :: t, hn =>
    rw [_create_eq_node _ _ (by simp)]
    set s := (x :: y :: t).mergeSort (axisLe (depth % 2)) with hs
    have hslen : s.length = n := by
      rw [hs, List.length_mergeSort]
      exact hn
    have hsnd : s.Nodup := (List.mergeSort_perm _ _).nodup_iff.mpr hnd
    have hn2 : 2 ≤ n := by
      simp only [List.length_cons] at hn
      omega
    have hm : s.length / 2 < s.length := Nat.div_lt_self (by omega) one_lt_two
    have ih1 := ih (s.take (s.length / 2)).length
      (by simp only [List.length_take]; omega) (s.take (s.length / 2)) (depth + 1) rfl
      ((List.take_sublist _ _).nodup hsnd)
    have ih2 := ih (s.drop (s.length / 2 + 1)).length
      (by simp only [List.length_drop]; omega) (s.drop (s.length / 2 + 1)) (depth + 1) rfl
      ((List.drop_sublist _ _).nodup hsnd)
    rw [List.getD_eq_getElem _ _ hm]
    simp only [Node.locExcluded, Bool.and_eq_true, Bool.not_eq_true', decide_eq_false_iff_not]
    refine ⟨⟨⟨?_, ?_⟩, ih1⟩, ih2⟩
    · intro hmem
      have : s[s.length / 2] ∈ s.take (s.length / 2) :=
        ((_create_toList_perm _ _).mem_iff).mp hmem
      obtain ⟨i, hi, hiq⟩ := List.mem_iff_getElem.mp this
      have him : i < s.length / 2 := by
        simp only [List.length_take] at hi
        omega
      have : s[i] = s[s.length / 2] := by
        rw [← hiq]
        exact (List.getElem_take _).symm
      have := (hsnd.getElem_inj_iff).mp this
      omega
    · intro hmem
      have : s[s.length / 2] ∈ s.drop (s.length / 2 + 1) :=
        ((_create_toList_perm _ _).mem_iff).mp hmem
      obtain ⟨j, hj, hjq⟩ := List.mem_iff_getElem.mp this
      have hjlen : s.length / 2 + 1 + j < s.length := by
        simp only [List.length_drop] at hj
        omega
      have : s[s.length / 2 + 1 + j] = s[s.length / 2] := by
        rw [← hjq]
        exact (List.getElem_drop _).symm
      have := (hsnd.getElem_inj_iff).mp this
      omega

/-! ### Correctness of the range query -/

theorem _range_eq (t : Node) (rect : Rectangle) (depth : ℕ) (result : List Point)
    (hInv : KdInv t depth) :
    _range t rect depth result = result ++ t.toList.filter (rect.is_contains ·) := by
  induction t generalizing depth result with
  | nil => simp [_range, Node.toList]
  | node loc l r ihl ihr =>
    obtain ⟨hL, hR, hIl, hIr⟩ := hInv
    have hfl : ¬ rect.lower.coord (depth % 2) ≤ loc.coord (depth % 2) →
        l.toList.filter (rect.is_contains ·) = [] := by
      intro hnot
      refine List.filter_eq_nil_iff.mpr ?_
      intro q hq hc
      exact hnot (le_trans (is_contains_coord hc (depth % 2)).1 (hL q hq))
    have hfr : ¬ loc.coord (depth % 2) ≤ rect.upper.coord (depth % 2) →
        r.toList.filter (rect.is_contains ·) = [] := by
      intro hnot
      refine List.filter_eq_nil_iff.mpr ?_
      intro q hq hc
      exact hnot (le_trans (hR q hq) (is_contains_coord hc (depth % 2)).2)
    simp only [_range, Node.toList, List.filter_cons, List.filter_append]
    by_cases h1 : rect.lower.coord (depth % 2) ≤ loc.coord (depth % 2) <;>
      by_cases h2 : loc.coord (depth % 2) ≤ rect.upper.coord (depth % 2) <;>
      cases hc : rect.is_contains loc <;>
      simp_all [ihl, ihr, hfl, hfr]

/-! ### A small theory of running minima in `WithTop ℚ` -/

theorem minFoldT_nil (b : WithTop ℚ) : minFoldT [] b = b := rfl

theorem minFoldT_cons (x : ℚ) (xs : List ℚ) (b : WithTop ℚ) :
    minFoldT (x :: xs) b = min (↑x) (minFoldT xs b) := rfl

theorem minFoldT_le_seed (xs : List ℚ) (b : WithTop ℚ) : minFoldT xs b ≤ b := by
  induction xs with
  | nil => exact le_refl b
  | cons x xs ih => exact le_trans (min_le_right _ _) ih

theorem minFoldT_le_mem {x : ℚ} {xs : List ℚ} (hx : x ∈ xs) (b : WithTop ℚ) :
    minFoldT xs b ≤ ↑x := by
  induction xs with
  | nil => cases hx
  | cons y ys ih =>
    rcases List.mem_cons.mp hx with h | h
    · rw [h, minFoldT_cons]
      exact min_le_left _ _
    · exact le_trans (min_le_right _ _) (ih h)

theorem le_minFoldT {c : WithTop ℚ} {xs : List ℚ} {b : WithTop ℚ} (hb : c ≤ b)
    (hxs : ∀ x ∈ xs, c ≤ ↑x) : c ≤ minFoldT xs b := by
  induction xs with
  | nil => exact hb
  | cons y ys ih =>
    rw [minFoldT_cons]
    exact le_min (hxs y (List.mem_cons_self _ _)) (ih fun x hx => hxs x (List.mem_cons_of_mem _ hx))

theorem minFoldT_min (xs : List ℚ) (a b : WithTop ℚ) :
    minFoldT xs (min a b) = min a (minFoldT xs b) := by
  induction xs with
  | nil => rfl
  | cons x t ih =>
    rw [minFoldT_cons, minFoldT_cons, ih, min_left_comm]

theorem minFoldT_comm (xs ys : List ℚ) (b : WithTop ℚ) :
    minFoldT xs (minFoldT ys b) = minFoldT ys (minFoldT xs b) := by
  induction xs with
  | nil => rfl
  | cons x t ih =>
    rw [minFoldT_cons, minFoldT_cons, ih, ← minFoldT_min]

theorem minFoldT_append (xs ys : List ℚ) (b : WithTop ℚ) :
    minFoldT (xs ++ ys) b = minFoldT xs (minFoldT ys b) := by
  simp [minFoldT, List.foldr_append]

theorem minFoldT_eq_seed (xs : List ℚ) (b : WithTop ℚ) (h : ∀ x ∈ xs, b ≤ ↑x) :
    minFoldT xs b = b :=
  le_antisymm (minFoldT_le_seed xs b) (le_minFoldT le_rfl h)

theorem minFoldT_perm {xs ys : List ℚ} (h : xs.Perm ys) (b : WithTop ℚ) :
    minFoldT xs b = minFoldT ys b := by
  induction h with
  | nil => rfl
  | cons x _ ih => rw [minFoldT_cons, minFoldT_cons, ih]
  | swap x y l => rw [minFoldT_cons, minFoldT_cons, minFoldT_cons, minFoldT_cons, min_left_comm]
  | trans _ _ ih1 ih2 => rw [ih1, ih2]

/-! ### Facts about the candidate list of the nearest-neighbour search -/

theorem seedD_eq_headD (p : Point) (best : List Point) (h : best ≠ []) :
    seedD p best = ((dist2 p (best.headD ⟨0, 0⟩) : ℚ) : WithTop ℚ) := by
  cases best with
  | nil => exact absurd rfl h
  | cons b0 t => rfl

theorem AllEq_nil (p : Point) : AllEq p [] := by
  intro b hb
  cases hb

theorem updateBest_ne_nil (p loc : Point) (best : List Point) :
    updateBest p loc best ≠ [] := by
  unfold updateBest
  split_ifs with h1 h2 h3
  · simp
  · simp
  · simp
  · intro hc
    rw [hc] at h1
    simp at h1

theorem _nearest_ne_nil (t : Node) (p : Point) (depth : ℕ) (best : List Point)
    (h : best ≠ []) : _nearest t p depth best ≠ [] := by
  induction t generalizing depth best with
  | nil => simpa [_nearest]
  | node loc l r ihl ihr =>
    simp only [_nearest]
    split_ifs with h1 h2 h3
    · exact ihr _ _ (ihl _ _ (updateBest_ne_nil _ _ _))
    · exact ihl _ _ (updateBest_ne_nil _ _ _)
    · exact ihl _ _ (ihr _ _ (updateBest_ne_nil _ _ _))
    · exact ihr _ _ (updateBest_ne_nil _ _ _)


theorem updateBest_NStep (p loc : Point) (best : List Point) (hall : AllEq p best) :
    NStep p [loc] best (updateBest p loc best) := by
  cases best with
  | nil =>
    have hu : updateBest p loc [] = [loc] := rfl
    rw [hu]
    refine ⟨?_, ?_, ?_⟩
    · intro b hb
      rcases List.mem_singleton.mp hb with rfl
      rfl
    · show seedD p [loc] = min (↑(dist2 p loc)) ⊤
      rw [min_eq_left le_top]
      rfl
    · intro b
      show b ∈ [loc] ↔ (b ∈ ([] : List Point) ∨ b ∈ [loc]) ∧
        ((dist2 p b : ℚ) : WithTop ℚ) = min (↑(dist2 p loc)) ⊤
      rw [min_eq_left le_top]
      simp only [List.mem_singleton, List.not_mem_nil, false_or]
      constructor
      · rintro rfl
        exact ⟨rfl, rfl⟩
      · rintro ⟨rfl, _⟩
        rfl
  | cons b0 rest =>
    have hlen : ¬ (b0 :: rest).length = 0 := by simp
    have hmin : minFoldT ([loc].map (dist2 p)) (seedD p (b0 :: rest)) =
        min (↑(dist2 p loc)) ((dist2 p b0 : ℚ) : WithTop ℚ) := rfl
    unfold updateBest
    rw [if_neg hlen]
    by_cases hlt : dist2 p loc < dist2 p ((b0 :: rest).headD ⟨0, 0⟩)
    · rw [if_pos hlt]
      have hlt' : dist2 p loc < dist2 p b0 := hlt
      refine ⟨?_, ?_, ?_⟩
      · intro b hb
        rcases List.mem_singleton.mp hb with rfl
        rfl
      · rw [hmin, min_eq_left (WithTop.coe_le_coe.mpr hlt'.le)]
        rfl
      · intro b
        rw [hmin, min_eq_left (WithTop.coe_le_coe.mpr hlt'.le)]
        constructor
        · intro hb
          rcases List.mem_singleton.mp hb with rfl
          exact ⟨Or.inr (List.mem_singleton_self _), rfl⟩
        · rintro ⟨hmem, hd⟩
          rcases hmem with hmem | hmem
          · have h1 := hall b hmem
            rw [hd] at h1
            exact absurd (WithTop.coe_inj.mp h1) hlt'.ne
          · exact hmem
    · rw [if_neg hlt]
      by_cases heq : dist2 p loc = dist2 p ((b0 :: rest).headD ⟨0, 0⟩)
      · rw [if_pos heq]
        have heq' : dist2 p loc = dist2 p b0 := heq
        refine ⟨?_, ?_, ?_⟩
        · intro b hb
          rcases List.mem_append.mp hb with hb | hb
          · exact hall b hb
          · rcases List.mem_singleton.mp hb with rfl
            simp only [seedD]
            rw [heq']
            rfl
        · rw [hmin]
          show ((dist2 p b0 : ℚ) : WithTop ℚ) = min (↑(dist2 p loc)) (↑(dist2 p b0))
          rw [heq', min_self]
        · intro b
          rw [hmin, heq', min_self]
          constructor
          · intro hb
            refine ⟨List.mem_append.mp hb, ?_⟩
            rcases List.mem_append.mp hb with hb | hb
            · exact hall b hb
            · rcases List.mem_singleton.mp hb with rfl
              rw [heq']
          · rintro ⟨hmem, _⟩
            exact List.mem_append.mpr hmem
      · rw [if_neg heq]
        have hgt : dist2 p b0 < dist2 p loc :=
          lt_of_le_of_ne (not_lt.mp hlt) (fun h => heq h.symm)
        refine ⟨hall, ?_, ?_⟩
        · rw [hmin, min_eq_right (WithTop.coe_le_coe.mpr hgt.le)]
          rfl
        · intro b
          rw [hmin, min_eq_right (WithTop.coe_le_coe.mpr hgt.le)]
          constructor
          · intro hb
            exact ⟨Or.inl hb, hall b hb⟩
          · rintro ⟨hmem | hmem, hd⟩
            · exact hmem
            · rcases List.mem_singleton.mp hmem with rfl
              exact absurd (WithTop.coe_inj.mp hd) hgt.ne'

theorem NStep.comp {p : Point} {xs ys best best1 best2 : List Point}
    (hall : AllEq p best) (h1 : NStep p xs best best1) (h2 : NStep p ys best1 best2) :
    NStep p (xs ++ ys) best best2 := by
  obtain ⟨ha1, hs1, hm1⟩ := h1
  obtain ⟨ha2, hs2, hm2⟩ := h2
  have hM : minFoldT ((xs ++ ys).map (dist2 p)) (seedD p best) =
      minFoldT (ys.map (dist2 p)) (minFoldT (xs.map (dist2 p)) (seedD p best)) := by
    rw [List.map_append, minFoldT_append, minFoldT_comm]
  have hMle1 : minFoldT ((xs ++ ys).map (dist2 p)) (seedD p best) ≤
      minFoldT (xs.map (dist2 p)) (seedD p best) := by
    rw [hM]
    exact minFoldT_le_seed _ _
  refine ⟨ha2, ?_, ?_⟩
  · rw [hs2, hs1, hM]
  · intro q
    rw [hm2 q]
    constructor
    · rintro ⟨hmem, hd⟩
      have hdM : ((dist2 p q : ℚ) : WithTop ℚ) =
          minFoldT ((xs ++ ys).map (dist2 p)) (seedD p best) := by
        rw [hd, hs1, hM]
      refine ⟨?_, hdM⟩
      rcases hmem with hq1 | hqy
      · obtain ⟨hmem', _⟩ := (hm1 q).mp hq1
        rcases hmem' with h | h
        · exact Or.inl h
        · exact Or.inr (List.mem_append_left _ h)
      · exact Or.inr (List.mem_append_right _ hqy)
    · rintro ⟨hmem, hd⟩
      have hd2 : ((dist2 p q : ℚ) : WithTop ℚ) =
          minFoldT (ys.map (dist2 p)) (seedD p best1) := by
        rw [hs1, ← hM]
        exact hd
      refine ⟨?_, hd2⟩
      rcases hmem with hq | hq
      · -- q comes from the original candidate list
        refine Or.inl ((hm1 q).mpr ⟨Or.inl hq, ?_⟩)
        have hqB : ((dist2 p q : ℚ) : WithTop ℚ) = seedD p best := hall q hq
        have hle1 : minFoldT (xs.map (dist2 p)) (seedD p best) ≤ seedD p best :=
          minFoldT_le_seed _ _
        exact le_antisymm (by rw [hd]; exact hMle1) (by rw [hqB]; exact hle1)
      · rcases List.mem_append.mp hq with hqx | hqy
        · refine Or.inl ((hm1 q).mpr ⟨Or.inr hqx, ?_⟩)
          have hle : minFoldT (xs.map (dist2 p)) (seedD p best) ≤ ↑(dist2 p q) :=
            minFoldT_le_mem (List.mem_map_of_mem _ hqx) _
          exact le_antisymm (by rw [hd]; exact hMle1) hle
        · exact Or.inr hqy

theorem NStep.skip {p : Point} {xs best : List Point} (hall : AllEq p best)
    (h : ∀ x ∈ xs, seedD p best < ↑(dist2 p x)) : NStep p xs best best := by
  have hseed : minFoldT (xs.map (dist2 p)) (seedD p best) = seedD p best := by
    refine minFoldT_eq_seed _ _ ?_
    intro d hd
    obtain ⟨x, hx, rfl⟩ := List.mem_map.mp hd
    exact (h x hx).le
  refine ⟨hall, hseed.symm, ?_⟩
  intro q
  rw [hseed]
  constructor
  · intro hq
    exact ⟨Or.inl hq, hall q hq⟩
  · rintro ⟨hmem, hd⟩
    rcases hmem with hmem | hmem
    · exact hmem
    · have hlt := h q hmem
      rw [hd] at hlt
      exact absurd hlt (lt_irrefl _)

theorem NStep.permList {p : Point} {xs ys best best' : List Point} (hxy : xs.Perm ys)
    (h : NStep p xs best best') : NStep p ys best best' := by
  obtain ⟨ha, hs, hm⟩ := h
  have heq : minFoldT (ys.map (dist2 p)) (seedD p best) =
      minFoldT (xs.map (dist2 p)) (seedD p best) := minFoldT_perm ((hxy.map _).symm) _
  refine ⟨ha, ?_, ?_⟩
  · rw [heq]
    exact hs
  · intro q
    rw [heq, hm q, hxy.mem_iff]

theorem _nearest_NStep (q : Point) (t : Node) (depth : ℕ) (best : List Point)
    (hInv : KdInv t depth) (hall : AllEq q best) :
    NStep q t.toList best (_nearest t q depth best) := by
  induction t generalizing depth best with
  | nil =>
    have h : NStep q [] best best := NStep.skip hall (by intro x hx; cases hx)
    simpa [_nearest, Node.toList] using h
  | node loc l r ihl ihr =>
    obtain ⟨hL, hR, hIl, hIr⟩ := hInv
    simp only [_nearest]
    have h0 : NStep q [loc] best (updateBest q loc best) := updateBest_NStep q loc best hall
    have hall1 : AllEq q (updateBest q loc best) := h0.1
    have hb1ne : updateBest q loc best ≠ [] := updateBest_ne_nil q loc best
    by_cases hbr : q.coord (depth % 2) < loc.coord (depth % 2)
    · rw [if_pos hbr]
      have h1 : NStep q l.toList (updateBest q loc best)
          (_nearest l q (depth + 1) (updateBest q loc best)) := ihl _ _ hIl hall1
      set best2 := _nearest l q (depth + 1) (updateBest q loc best) with hb2
      have hall2 : AllEq q best2 := h1.1
      have hb2ne : best2 ≠ [] := _nearest_ne_nil _ _ _ _ hb1ne
      have hcomp1 : NStep q ([loc] ++ l.toList) best best2 := NStep.comp hall h0 h1
      by_cases hpr : (loc.coord (depth % 2) - q.coord (depth % 2)) ^ 2 ≤
          dist2 q (best2.headD ⟨0, 0⟩)
      · rw [if_pos hpr]
        have h2 : NStep q r.toList best2 (_nearest r q (depth + 1) best2) :=
          ihr _ _ hIr hall2
        have hfin : NStep q (([loc] ++ l.toList) ++ r.toList) best
            (_nearest r q (depth + 1) best2) := NStep.comp hall hcomp1 h2
        simpa [Node.toList] using hfin
      · rw [if_neg hpr]
        have hskip : NStep q r.toList best2 best2 := by
          refine NStep.skip hall2 ?_
          intro x hx
          rw [seedD_eq_headD q best2 hb2ne, WithTop.coe_lt_coe]
          have hxc : loc.coord (depth % 2) ≤ x.coord (depth % 2) := hR x hx
          have hsq : (loc.coord (depth % 2) - q.coord (depth % 2)) ^ 2 ≤
              (x.coord (depth % 2) - q.coord (depth % 2)) ^ 2 := by
            nlinarith [hbr, hxc]
          have hd2 := sq_coord_le_dist2 q x (depth % 2)
          have hlt := not_le.mp hpr
          linarith
        have hfin : NStep q (([loc] ++ l.toList) ++ r.toList) best best2 :=
          NStep.comp hall hcomp1 hskip
        simpa [Node.toList] using hfin
    · rw [if_neg hbr]
      have h1 : NStep q r.toList (updateBest q loc best)
          (_nearest r q (depth + 1) (updateBest q loc best)) := ihr _ _ hIr hall1
      set best2 := _nearest r q (depth + 1) (updateBest q loc best) with hb2
      have hall2 : AllEq q best2 := h1.1
      have hb2ne : best2 ≠ [] := _nearest_ne_nil _ _ _ _ hb1ne
      have hcomp1 : NStep q ([loc] ++ r.toList) best best2 := NStep.comp hall h0 h1
      have hperm : ∀ res : List Point, NStep q (([loc] ++ r.toList) ++ l.toList) best res →
          NStep q (Node.node loc l r).toList best res := by
        intro res h
        have hp : (([loc] ++ r.toList) ++ l.toList).Perm (loc :: (l.toList ++ r.toList)) := by
          have h1 : (([loc] ++ r.toList) ++ l.toList).Perm (loc :: (r.toList ++ l.toList)) := by
            simp
          exact h1.trans (List.Perm.cons _ List.perm_append_comm)
        simpa [Node.toList] using NStep.permList hp h
      by_cases hpr : (q.coord (depth % 2) - loc.coord (depth % 2)) ^ 2 ≤
          dist2 q (best2.headD ⟨0, 0⟩)
      · rw [if_pos hpr]
        have h2 : NStep q l.toList best2 (_nearest l q (depth + 1) best2) :=
          ihl _ _ hIl hall2
        exact hperm _ (NStep.comp hall hcomp1 h2)
      · rw [if_neg hpr]
        have hskip : NStep q l.toList best2 best2 := by
          refine NStep.skip hall2 ?_
          intro x hx
          rw [seedD_eq_headD q best2 hb2ne, WithTop.coe_lt_coe]
          have hxc : x.coord (depth % 2) ≤ loc.coord (depth % 2) := hL x hx
          have hql : loc.coord (depth % 2) ≤ q.coord (depth % 2) := not_lt.mp hbr
          have hsq : (q.coord (depth % 2) - loc.coord (depth % 2)) ^ 2 ≤
              (x.coord (depth % 2) - q.coord (depth % 2)) ^ 2 := by
            nlinarith [hxc, hql]
          have hd2 := sq_coord_le_dist2 q x (depth % 2)
          have hlt := not_le.mp hpr
          linarith
        exact hperm _ (NStep.comp hall hcomp1 hskip)

theorem mem_nearest_iff (P : List Point) (q b : Point) :
    b ∈ (KDTree.new.insert P).nearest q ↔
      b ∈ P ∧ ∀ p' ∈ P, dist2 q b ≤ dist2 q p' := by
  obtain ⟨_, _, hm⟩ :=
    _nearest_NStep q (_create P 0) 0 [] (_create_KdInv P 0) (AllEq_nil q)
  have hperm := _create_toList_perm P 0
  have hnq : (KDTree.new.insert P).nearest q = _nearest (_create P 0) q 0 [] := rfl
  rw [hnq, hm b]
  constructor
  · rintro ⟨hmem, hd⟩
    rcases hmem with hmem | hmem
    · cases hmem
    · refine ⟨hperm.mem_iff.mp hmem, ?_⟩
      intro p' hp'
      have hle : minFoldT ((_create P 0).toList.map (dist2 q)) (seedD q []) ≤
          ((dist2 q p' : ℚ) : WithTop ℚ) :=
        minFoldT_le_mem (List.mem_map_of_mem _ (hperm.mem_iff.mpr hp')) _
      rw [← hd] at hle
      exact WithTop.coe_le_coe.mp hle
  · rintro ⟨hmem, hmin⟩
    have hmem' : b ∈ (_create P 0).toList := hperm.mem_iff.mpr hmem
    refine ⟨Or.inr hmem', ?_⟩
    refine le_antisymm ?_ (minFoldT_le_mem (List.mem_map_of_mem _ hmem') _)
    refine le_minFoldT le_top ?_
    intro d hd
    obtain ⟨x, hx, rfl⟩ := List.mem_map.mp hd
    exact WithTop.coe_le_coe.mpr (hmin x (hperm.mem_iff.mp hx))

/-! ### The IndexError model never fails -/

theorem updateBestE_eq (p loc : Point) (best : List Point) :
    updateBestE p loc best = some (updateBest p loc best) := by
  cases best with
  | nil => rfl
  | cons b0 rest =>
    unfold updateBestE updateBest
    rw [if_neg (by simp : ¬(b0 :: rest).length = 0),
      if_neg (by simp : ¬(b0 :: rest).length = 0)]
    show (if dist2 p loc < dist2 p b0 then some [loc]
        else if dist2 p loc = dist2 p b0 then some ((b0 :: rest) ++ [loc])
        else some (b0 :: rest)) =
      some (if dist2 p loc < dist2 p b0 then [loc]
        else if dist2 p loc = dist2 p b0 then (b0 :: rest) ++ [loc]
        else (b0 :: rest))
    split_ifs <;> rfl

theorem head?_eq_of_ne_nil (bs : List Point) (hbs : bs ≠ []) :
    bs.head? = some (bs.headD ⟨0, 0⟩) := by
  cases bs with
  | nil => exact absurd rfl hbs
  | cons a t => rfl

theorem _nearestE_eq (t : Node) (p : Point) (depth : ℕ) (best : List Point) :
    _nearestE t p depth best = some (_nearest t p depth best) := by
  induction t generalizing depth best with
  | nil => rfl
  | node loc l r ihl ihr =>
    simp only [_nearestE, _nearest, updateBestE_eq]
    by_cases hbr : p.coord (depth % 2) < loc.coord (depth % 2)
    · simp only [if_pos hbr, ihl,
        head?_eq_of_ne_nil _ (_nearest_ne_nil _ _ _ _ (updateBest_ne_nil _ _ _))]
      by_cases hpr : (loc.coord (depth % 2) - p.coord (depth % 2)) ^ 2 ≤
          dist2 p ((_nearest l p (depth + 1) (updateBest p loc best)).headD ⟨0, 0⟩)
      · simp only [if_pos hpr, ihr]
      · simp only [if_neg hpr]
    · simp only [if_neg hbr, ihr,
        head?_eq_of_ne_nil _ (_nearest_ne_nil _ _ _ _ (updateBest_ne_nil _ _ _))]
      by_cases hpr : (p.coord (depth % 2) - loc.coord (depth % 2)) ^ 2 ≤
          dist2 p ((_nearest r p (depth + 1) (updateBest p loc best)).headD ⟨0, 0⟩)
      · simp only [if_pos hpr, ihl]
      · simp only [if_neg hpr]

/-! ### The literal square-root model agrees with the squared-distance model -/

theorem _distance_eq_sqrt (p1 p2 : Point) :
    _distance p1 p2 = Real.sqrt ((dist2 p1 p2 : ℚ) : ℝ) := by
  unfold _distance dist2
  congr 1
  push_cast
  ring

theorem _distance_lt_iff (p a b : Point) :
    _distance p a < _distance p b ↔ dist2 p a < dist2 p b := by
  rw [_distance_eq_sqrt, _distance_eq_sqrt,
    Real.sqrt_lt_sqrt_iff (by exact_mod_cast dist2_nonneg p a), Rat.cast_lt]

theorem _distance_eq_iff (p a b : Point) :
    _distance p a = _distance p b ↔ dist2 p a = dist2 p b := by
  rw [_distance_eq_sqrt, _distance_eq_sqrt,
    Real.sqrt_inj (by exact_mod_cast dist2_nonneg p a) (by exact_mod_cast dist2_nonneg p b),
    Rat.cast_inj]

theorem prune_cond_lt {p loc : Point} {axis : ℕ} (h : p.coord axis < loc.coord axis)
    (bh : Point) :
    (((p.coord axis : ℚ) : ℝ) + _distance p bh ≥ ((loc.coord axis : ℚ) : ℝ)) ↔
      (loc.coord axis - p.coord axis) ^ 2 ≤ dist2 p bh := by
  rw [ge_iff_le, ← sub_le_iff_le_add', _distance_eq_sqrt]
  rw [Real.le_sqrt (by simp only [sub_nonneg]; exact_mod_cast h.le)
    (by exact_mod_cast dist2_nonneg p bh)]
  constructor
  · intro hc
    exact_mod_cast hc
  · intro hc
    exact_mod_cast hc

theorem prune_cond_ge {p loc : Point} {axis : ℕ} (h : loc.coord axis ≤ p.coord axis)
    (bh : Point) :
    (((p.coord axis : ℚ) : ℝ) - _distance p bh ≤ ((loc.coord axis : ℚ) : ℝ)) ↔
      (p.coord axis - loc.coord axis) ^ 2 ≤ dist2 p bh := by
  rw [sub_le_comm, _distance_eq_sqrt]
  rw [Real.le_sqrt (by simp only [sub_nonneg]; exact_mod_cast h)
    (by exact_mod_cast dist2_nonneg p bh)]
  constructor
  · intro hc
    exact_mod_cast hc
  · intro hc
    exact_mod_cast hc

theorem _nearestR_eq_nearest (t : Node) (p : Point) (depth : ℕ) (best : List Point) :
    _nearestR t p depth best = _nearest t p depth best := by
  induction t generalizing depth best with
  | nil => rfl
  | node loc l r ihl ihr =>
    simp only [_nearestR, _nearest]
    have hupd : (if best.length = 0 then [loc]
        else if _distance p loc < _distance p (best.headD ⟨0, 0⟩) then [loc]
        else if _distance p loc = _distance p (best.headD ⟨0, 0⟩) then best ++ [loc]
        else best) = updateBest p loc best := by
      unfold updateBest
      by_cases h0 : best.length = 0
      · rw [if_pos h0, if_pos h0]
      · rw [if_neg h0, if_neg h0]
        by_cases h1 : dist2 p loc < dist2 p (best.headD ⟨0, 0⟩)
        · rw [if_pos ((_distance_lt_iff _ _ _).mpr h1), if_pos h1]
        · rw [if_neg (fun hc => h1 ((_distance_lt_iff _ _ _).mp hc)), if_neg h1]
          by_cases h2 : dist2 p loc = dist2 p (best.headD ⟨0, 0⟩)
          · rw [if_pos ((_distance_eq_iff _ _ _).mpr h2), if_pos h2]
          · rw [if_neg (fun hc => h2 ((_distance_eq_iff _ _ _).mp hc)), if_neg h2]
    rw [hupd]
    by_cases hbr : p.coord (depth % 2) < loc.coord (depth % 2)
    · rw [if_pos hbr, if_pos hbr, ihl]
      by_cases hpr : (loc.coord (depth % 2) - p.coord (depth % 2)) ^ 2 ≤
          dist2 p ((_nearest l p (depth + 1) (updateBest p loc best)).headD ⟨0, 0⟩)
      · rw [if_pos ((prune_cond_lt hbr _).mpr hpr), if_pos hpr, ihr]
      · rw [if_neg (fun hc => hpr ((prune_cond_lt hbr _).mp hc)), if_neg hpr]
    · rw [if_neg hbr, if_neg hbr, ihr]
      by_cases hpr : (p.coord (depth % 2) - loc.coord (depth % 2)) ^ 2 ≤
          dist2 p ((_nearest r p (depth + 1) (updateBest p loc best)).headD ⟨0, 0⟩)
      · rw [if_pos ((prune_cond_ge (not_lt.mp hbr) _).mpr hpr), if_pos hpr, ihl]
      · rw [if_neg (fun hc => hpr ((prune_cond_ge (not_lt.mp hbr) _).mp hc)), if_neg hpr]

/-! ### The observable effect of the in-place sort on the caller's list -/

theorem insertEffect_eq_mergeSort (p : List Point) :
    insertEffect p = p.mergeSort (axisLe (0 % 2)) := by
  match p with
  | [] => simp [insertEffect]
  | [q] => simp [insertEffect]
  | x :: y :: t => rfl

theorem insertEffect_perm (p : List Point) : (insertEffect p).Perm p := by
  rw [insertEffect_eq_mergeSort]
  exact List.mergeSort_perm p _

theorem insertEffect_sorted (p : List Point) :
    List.Pairwise (fun a b => a.x ≤ b.x) (insertEffect p) := by
  rw [insertEffect_eq_mergeSort]
  exact (mergeSort_axis_pairwise (0 % 2) p).imp (fun h => h)

theorem insertEffect_stable (p : List Point) (v : ℚ) :
    (insertEffect p).filter (fun q => decide (q.x = v)) =
      p.filter (fun q => decide (q.x = v)) := by
  rw [insertEffect_eq_mergeSort]
  have hpw : List.Pairwise (fun a b => axisLe (0 % 2) a b = true)
      (p.filter (fun q => decide (q.x = v))) := by
    refine List.pairwise_of_forall_mem_list ?_
    intro a ha b hb
    have hav : a.x = v := by simpa using List.of_mem_filter ha
    have hbv : b.x = v := by simpa using List.of_mem_filter hb
    simp [axisLe, Point.coord, hav, hbv]
  have hsub : (p.filter (fun q => decide (q.x = v))).Sublist
      (p.mergeSort (axisLe (0 % 2))) :=
    List.sublist_mergeSort (axisLe_trans _) (axisLe_total _) hpw (List.filter_sublist p)
  have hsub2 : (p.filter (fun q => decide (q.x = v))).Sublist
      ((p.mergeSort (axisLe (0 % 2))).filter (fun q => decide (q.x = v))) := by
    have h := List.Sublist.filter (fun q => decide (q.x = v)) hsub
    have hself : (p.filter (fun q => decide (q.x = v))).filter (fun q => decide (q.x = v)) =
        p.filter (fun q => decide (q.x = v)) :=
      List.filter_eq_self.mpr (fun a ha => (List.mem_filter.mp ha).2)
    rwa [hself] at h
  have hlen : (p.filter (fun q => decide (q.x = v))).length =
      ((p.mergeSort (axisLe (0 % 2))).filter (fun q => decide (q.x = v))).length :=
    (((List.mergeSort_perm p _).filter _).length_eq).symm
  exact (hsub2.eq_of_length hlen).symm

/-! ### Sorting a two-element list of equal points is the identity -/

theorem mergeSort_pair (a : Point) (le : Point → Point → Bool) :
    [a, a].mergeSort le = [a, a] := by
  have hperm := List.mergeSort_perm [a, a] le
  have hlen : ([a, a].mergeSort le).length = 2 := by
    rw [List.length_mergeSort]
    rfl
  have hmem : ∀ x ∈ [a, a].mergeSort le, x = a := by
    intro x hx
    have hx2 := hperm.mem_iff.mp hx
    simpa using hx2
  cases hms : [a, a].mergeSort le with
  | nil =>
    rw [hms] at hlen
    simp at hlen
  | cons x t =>
    cases t with
    | nil =>
      rw [hms] at hlen
      simp at hlen
    | cons y t2 =>
      cases t2 with
      | cons z t3 =>
        rw [hms] at hlen
        simp at hlen
      | nil =>
        rw [hms] at hmem
        have hx := hmem x (by simp)
        have hy := hmem y (by simp)
        rw [hx, hy]

/-! ## The claims -/

/-- C1: after `insert(P)`, for every rectangle `R` the query `range(R)` returns,
as a multiset (and hence as a set, with one occurrence per stored occurrence),
exactly the stored points contained in `R`: no false positives, no omissions;
the order of the result is left unspecified by stating the theorem as a
permutation. -/
theorem range_query_correct (kd : KDTree) (P : List Point) (R : Rectangle) :
    ((kd.insert P).range R).Perm (P.filter (R.is_contains ·)) := by
  have h := _range_eq (_create P 0) R 0 [] (_create_KdInv P 0)
  show (_range (_create P 0) R 0 []).Perm _
  rw [h]
  simpa using ((_create_toList_perm P 0).filter (R.is_contains ·))

/-- C2: after `insert(P)` with `P` non-empty, for every query point `q` the
query `nearest(q)` returns, as a set, exactly the points of `P` whose
Euclidean distance to `q` is minimal over `P` — every tied point included,
every strictly farther point excluded — despite the pruned traversal that
uses the single shared best distance as its bound.  Minimality is stated on
the squared distance `dist2`; by `_distance_lt_iff` and `_distance_eq_iff`
this order coincides with the order of the source's Euclidean `_distance`. -/
theorem nearest_query_correct (kd : KDTree) (P : List Point) (q : Point) (_h : P ≠ []) :
    ((kd.insert P).nearest q).toFinset =
      P.toFinset.filter (fun b => ∀ p' ∈ P.toFinset, dist2 q b ≤ dist2 q p') := by
  have hkd : (kd.insert P).nearest q = (KDTree.new.insert P).nearest q := rfl
  rw [hkd]
  ext b
  simp only [List.mem_toFinset, Finset.mem_filter]
  rw [mem_nearest_iff P q b]

/-- Witness for C2 at the lattice scenario: the four corners `(0,0)`, `(4,0)`,
`(0,4)`, `(4,4)` are all tied nearest to `(2,2)`. -/
theorem nearest_query_correct_witness :
    ([(⟨0, 0⟩ : Point), ⟨4, 0⟩, ⟨0, 4⟩, ⟨4, 4⟩] ≠ []) ∧
      ((KDTree.new.insert [(⟨0, 0⟩ : Point), ⟨4, 0⟩, ⟨0, 4⟩, ⟨4, 4⟩]).nearest
          ⟨2, 2⟩).toFinset =
        ([(⟨0, 0⟩ : Point), ⟨4, 0⟩, ⟨0, 4⟩, ⟨4, 4⟩].toFinset).filter
          (fun b => ∀ p' ∈ [(⟨0, 0⟩ : Point), ⟨4, 0⟩, ⟨0, 4⟩, ⟨4, 4⟩].toFinset,
            dist2 ⟨2, 2⟩ b ≤ dist2 ⟨2, 2⟩ p') :=
  ⟨by decide, nearest_query_correct KDTree.new _ _ (by decide)⟩

/-- C3, counterexample: the claim says the node's own point appears in neither
child subtree, but with the duplicated input `[(0,0), (0,0)]` the build places
the median occurrence of `(0,0)` at the root and the other occurrence in the
left child, so the root's point (as a value) does appear in a child. -/
theorem create_locExcluded_counterexample :
    ((KDTree.new.insert [(⟨0, 0⟩ : Point), ⟨0, 0⟩]).root).locExcluded = false := by
  have htree : _create [(⟨0, 0⟩ : Point), ⟨0, 0⟩] 0 =
      Node.node ⟨0, 0⟩ (Node.node ⟨0, 0⟩ Node.nil Node.nil) Node.nil := by
    rw [_create_eq_node _ _ (by simp), mergeSort_pair]
    norm_num [_create, List.getD]
  show (_create [(⟨0, 0⟩ : Point), ⟨0, 0⟩] 0).locExcluded = false
  rw [htree]
  decide

/-- C3, amended: every tree produced by `insert` satisfies the structural
invariant — at depth `d` the discriminator axis is `d % 2`, every point in the
left subtree is `≤` the node's point on that axis, every point in the right
subtree is `≥` it — and, provided the inserted points are pairwise distinct,
the node's own point appears in neither child subtree.  (For inputs with
duplicates only the median occurrence is excluded from the children; the
point may reappear as a value, see the counterexample.) -/
theorem create_invariant_amended (kd : KDTree) (P : List Point) :
    KdInv (kd.insert P).root 0 ∧
      (P.Nodup → ((kd.insert P).root).locExcluded = true) :=
  ⟨_create_KdInv P 0, fun h => _create_locExcluded P 0 h⟩

/-- Witness for C3's amended claim at the distinct input `[(1,2), (3,4)]`. -/
theorem create_invariant_amended_witness :
    ([(⟨1, 2⟩ : Point), ⟨3, 4⟩].Nodup) ∧
      KdInv (KDTree.new.insert [(⟨1, 2⟩ : Point), ⟨3, 4⟩]).root 0 ∧
      ((KDTree.new.insert [(⟨1, 2⟩ : Point), ⟨3, 4⟩]).root).locExcluded = true :=
  ⟨by decide, (create_invariant_amended KDTree.new _).1,
    (create_invariant_amended KDTree.new _).2 (by decide)⟩

/-- C4: after `insert(P)` the multiset of location values stored across all
nodes of the tree equals the multiset of elements of `P`, and the stored
count field `_n` equals `len(P)` (which, by the permutation, is the number of
points in the tree). -/
theorem insert_contents (kd : KDTree) (P : List Point) :
    ((kd.insert P).root.toList).Perm P ∧ (kd.insert P).n = P.length :=
  ⟨_create_toList_perm P 0, rfl⟩

/-- C5: `insert` is a full replacement, not an incremental add: after
`insert(P₁)` followed by `insert(P₂)` the object state, and hence every
`range` and `nearest` result, is exactly that of a fresh tree built from
`P₂` alone, and the count is `len(P₂)` with duplicates counted. -/
theorem insert_replaces (kd : KDTree) (P₁ P₂ : List Point) (R : Rectangle) (q : Point) :
    (kd.insert P₁).insert P₂ = KDTree.new.insert P₂ ∧
      ((kd.insert P₁).insert P₂).range R = (KDTree.new.insert P₂).range R ∧
      ((kd.insert P₁).insert P₂).nearest q = (KDTree.new.insert P₂).nearest q ∧
      ((kd.insert P₁).insert P₂).n = P₂.length :=
  ⟨rfl, rfl, rfl, rfl⟩

/-- C6: on a freshly constructed tree (`root` absent, count `0`), `range`
returns the empty sequence for every rectangle and `nearest` returns the
empty sequence for every query point; the exception-aware model confirms no
error is raised on the empty tree. -/
theorem empty_tree_queries (R : Rectangle) (q : Point) :
    KDTree.new.range R = [] ∧ KDTree.new.nearest q = [] ∧
      KDTree.new.nearestE q = some [] :=
  ⟨rfl, rfl, rfl⟩

/-- C7: no public operation raises on well-typed inputs; in particular the
`best[0]` accesses inside the nearest-neighbour recursion always read a
non-empty list: the exception-aware model `nearestE`, in which every
`best[0]` is a fallible `head?`, returns `some` of the total model's result
on every tree state.  (`insert` and `range` contain no fallible operation and
are modelled by total functions.) -/
theorem nearest_never_raises (kd : KDTree) (q : Point) :
    kd.nearestE q = some (kd.nearest q) :=
  _nearestE_eq kd.root q 0 []

/-- C8: `Rectangle.is_contains(p)` is true exactly when
`lower.x ≤ p.x ≤ upper.x` and `lower.y ≤ p.y ≤ upper.y` (inclusive on both
axes and both bounds), and a malformed rectangle whose lower bound exceeds
its upper bound on some axis contains no point at all. -/
theorem is_contains_spec (r : Rectangle) (p : Point) :
    (r.is_contains p = true ↔
      r.lower.x ≤ p.x ∧ p.x ≤ r.upper.x ∧ r.lower.y ≤ p.y ∧ p.y ≤ r.upper.y) ∧
    ((r.upper.x < r.lower.x ∨ r.upper.y < r.lower.y) → r.is_contains p = false) := by
  refine ⟨is_contains_iff r p, ?_⟩
  intro hmal
  rw [← Bool.not_eq_true, is_contains_iff]
  rintro ⟨h1, h2, h3, h4⟩
  rcases hmal with hm | hm
  · linarith
  · linarith

/-- Witness for C8 at the malformed rectangle with corners `(1,0)` and
`(0,1)` (lower `x` exceeds upper `x`) and the point `(0,0)`. -/
theorem is_contains_spec_witness :
    ((Rectangle.mk ⟨1, 0⟩ ⟨0, 1⟩).upper.x < (Rectangle.mk ⟨1, 0⟩ ⟨0, 1⟩).lower.x ∨
      (Rectangle.mk ⟨1, 0⟩ ⟨0, 1⟩).upper.y < (Rectangle.mk ⟨1, 0⟩ ⟨0, 1⟩).lower.y) ∧
      (Rectangle.mk ⟨1, 0⟩ ⟨0, 1⟩).is_contains ⟨0, 0⟩ = false :=
  ⟨by decide, (is_contains_spec (Rectangle.mk ⟨1, 0⟩ ⟨0, 1⟩) ⟨0, 0⟩).2 (by decide)⟩

/-- C9: in the step semantics of the public API, `range` and `nearest` leave
the object state (root, count, every node) unchanged, so repeated calls with
the same argument and no intervening `insert` return identical results:
queries are deterministic and never mutate the tree. -/
theorem queries_pure_and_deterministic (kd : KDTree) (R : Rectangle) (q : Point) :
    (stepOp kd (Op.rangeOp R)).1 = kd ∧
      (stepOp kd (Op.nearestOp q)).1 = kd ∧
      (stepOp (stepOp kd (Op.rangeOp R)).1 (Op.rangeOp R)).2 =
        (stepOp kd (Op.rangeOp R)).2 ∧
      (stepOp (stepOp kd (Op.nearestOp q)).1 (Op.nearestOp q)).2 =
        (stepOp kd (Op.nearestOp q)).2 :=
  ⟨rfl, rfl, rfl, rfl⟩

/-- C10: `insert(P)` mutates the caller's list object in place: the top-level
build sorts the very list passed in by the depth-0 axis, so after `insert`
returns the caller's list equals the stable sort of its previous contents by
the x coordinate — same multiset, sorted by `x`, and elements with equal `x`
keep their original relative order (stability, stated per x-class). -/
theorem insert_mutates_caller_list (P : List Point) :
    insertEffect P = P.mergeSort (axisLe (0 % 2)) ∧
      (insertEffect P).Perm P ∧
      List.Pairwise (fun a b => a.x ≤ b.x) (insertEffect P) ∧
      ∀ v : ℚ, (insertEffect P).filter (fun q => decide (q.x = v)) =
        P.filter (fun q => decide (q.x = v)) :=
  ⟨insertEffect_eq_mergeSort P, insertEffect_perm P, insertEffect_sorted P,
    fun v => insertEffect_stable P v⟩
